import Mathlib

/-!
Verification of the manifest-mutation engine of `cargo-ros2ws`.

The Rust sources (`src/manifest.rs`, `src/cli.rs`, `src/error.rs`) edit a
`Cargo.toml` workspace manifest through the `toml_edit` library.  This file
gives a shallow embedding of the TOML document tree and of the operations
`Manifest::add_member`, `Manifest::add_patch`, `Manifest::read_from`,
`Manifest::write_to` and `FileLock::from_cli_args`, and proves the spec's
claims about them.
-/

set_option autoImplicit false

namespace Ros2ws

/-- Scalar and inline values of a TOML document, mirroring `toml_edit::Value`.
Only the value kinds that the program's branches distinguish are listed
(strings, integers, booleans, arrays, inline tables); the remaining scalar
kinds of `toml_edit` (floats, date-times) behave exactly like `int` in every
operation modelled here (`as_str` returns `None`, `is_array`/`is_table` are
false), so they are not duplicated. -/
inductive TomlValue where
  | str (s : String)
  | int (n : Int)
  | boolV (b : Bool)
  | array (elems : List TomlValue)
  | inlineTable (entries : List (String × TomlValue))
deriving Repr

/-- A node of the document tree, mirroring `toml_edit::Item`:
`None`, `Value`, `Table` (with its `implicit` formatting flag) and
`ArrayOfTables`.  A table's body is an ordered association list, as
`toml_edit` keys are ordered and duplicates cannot arise from parsing. -/
inductive Item where
  | none
  | value (v : TomlValue)
  | table (implicit : Bool) (entries : List (String × Item))
  | arrayOfTables (tables : List (List (String × Item)))
deriving Repr

/-- The body of a TOML table / of the document root. -/
abbrev Entries := List (String × Item)

/-- `Item::is_table`: true exactly for `Item::Table` (an inline table stored
as a `Value` is not a table). -/
def Item.isTable : Item → Bool
  | .table _ _ => true
  | _ => false

/-- `Item::is_array`: true exactly for `Item::Value(Value::Array)`. -/
def Item.isArray : Item → Bool
  | .value (.array _) => true
  | _ => false

/-- `Item::is_none`. -/
def Item.isNone : Item → Bool
  | .none => true
  | _ => false

/-- `Value::as_str`: `Some` exactly for string values. -/
def TomlValue.asStr : TomlValue → Option String
  | .str s => some s
  | _ => none

/-- Table lookup (`table[key]` read side): the item stored under the first
occurrence of `k`, or `Item.none` when the key is absent. -/
def tableGet : Entries → String → Item
  | [], _ => .none
  | (k', v) :: rest, k => if k' = k then v else tableGet rest k

/-- Table store (`table[key] = item` / the write performed by `or_insert`):
replace the first occurrence of `k` in place, else append at the end —
exactly the position policy of `toml_edit`'s `IndexMut`. -/
def tableSet : Entries → String → Item → Entries
  | [], k, v => [(k, v)]
  | (k', v') :: rest, k, v =>
      if k' = k then (k, v) :: rest else (k', v') :: tableSet rest k v

/-- Number of entries stored under key `k`. -/
def countKey : Entries → String → Nat
  | [], _ => 0
  | (k', _) :: rest, k => (if k' = k then 1 else 0) + countKey rest k

/-- `item.or_insert(dflt)`: when the slot under `k` is `Item::None` (the key
is absent, or present with a `None` placeholder), store `dflt` there and hand
it back; otherwise leave the table alone and hand back the stored item.
Returns the updated table body together with the item the caller now holds a
mutable reference to. -/
def orInsert (es : Entries) (k : String) (dflt : Item) : Entries × Item :=
  match tableGet es k with
  | .none => (tableSet es k dflt, dflt)
  | .value v => (es, .value v)
  | .table i t => (es, .table i t)
  | .arrayOfTables ts => (es, .arrayOfTables ts)

/-- A `std::path::Path` as the program observes it: either valid UTF-8 text
or a byte sequence that is not (on which `Path::to_str` returns `None`). -/
inductive RustPath where
  | utf8 (s : String)
  | nonUtf8 (bytes : List Nat)
deriving Repr

/-- `Path::is_absolute` on Unix: `has_root()`, i.e. the path begins with the
separator `/` (its first character, or first byte for non-UTF-8 paths). -/
def RustPath.isAbsolute : RustPath → Bool
  | .utf8 s => s.data.head? == some '/'
  | .nonUtf8 bs => bs.head? == some 47

/-- `Path::to_str`. -/
def RustPath.toStr : RustPath → Option String
  | .utf8 s => some s
  | .nonUtf8 _ => none

/-- The error kinds the program surfaces (spec §7).  `validationError` covers
the `ensure!` message errors (non-absolute path, directory where a file is
required, empty crate name); `schemaError` is `Ros2wsError::InvalidManifestFile`
with its key and expected-kind strings; `lockTimeout` carries the manifest
path named in the lock failure message. -/
inductive Err where
  | ioError
  | parseError
  | schemaError (key : String) (expected : String)
  | validationError
  | encodingError
  | lockTimeout (path : RustPath)
deriving Repr

/-- `fn ensure_abs_path` (`manifest.rs:127`). -/
def ensure_abs_path (p : RustPath) : Except Err Unit :=
  if p.isAbsolute then .ok () else .error .validationError

/-- `fn ensure_is_file` (`manifest.rs:133`): rejects an existing directory.
Whether the path names a directory is a file-system fact, passed in. -/
def ensure_is_file (isDir : Bool) : Except Err Unit :=
  if isDir then .error .validationError else .ok ()

/-- Outcome of a mutation on the document tree: success with the new tree,
an error together with the tree state at the moment of the error (the Rust
code mutates in place, so lazily created scaffolding survives a later
failure), or a panic (`unwrap` on `None`/`Err`), which aborts the process. -/
inductive StepResult where
  | ok (root : Entries)
  | err (e : Err) (root : Entries)
  | panic
deriving Repr

/-- Outcome of a section accessor: the tree after any lazy scaffolding,
plus the accessed table's `implicit` flag and body. -/
inductive SectionResult where
  | ok (root : Entries) (implicit : Bool) (entries : Entries)
  | err (e : Err) (root : Entries)
deriving Repr

/-- `Manifest::get_workspace_section` (`manifest.rs:62`):
`self.data["workspace"].or_insert(toml_edit::table())`, then
`ensure!(workspace.is_table(), InvalidManifestFile("workspace", "table"))`.
`toml_edit::table()` is a fresh explicit (non-implicit) table. -/
def get_workspace_section (root : Entries) : SectionResult :=
  match orInsert root "workspace" (.table false []) with
  | (root1, .table imp es) => .ok root1 imp es
  | (root1, _) => .err (.schemaError "workspace" "table") root1

/-- Outcome of `get_workspace_members_section`: the tree after scaffolding
plus the members array's elements. -/
inductive MembersResult where
  | ok (root : Entries) (elems : List TomlValue)
  | err (e : Err) (root : Entries)
deriving Repr

/-- `Manifest::get_workspace_members_section` (`manifest.rs:71`):
fetch the workspace table, then
`workspace["members"].or_insert(toml_edit::value(Array::default()))`, then
`ensure!(members.is_array(), InvalidManifestFile("workspace.members", "array"))`.
The `or_insert` write lands on the tree immediately, before the shape check. -/
def get_workspace_members_section (root : Entries) : MembersResult :=
  match get_workspace_section root with
  | .err e r => .err e r
  | .ok root1 imp wsEs =>
    match orInsert wsEs "members" (.value (.array [])) with
    | (wsEs1, item) =>
      let root2 := tableSet root1 "workspace" (.table imp wsEs1)
      match item with
      | .value (.array elems) => .ok root2 elems
      | _ => .err (.schemaError "workspace.members" "array") root2

/-- The scan `members_array_mut.iter().all(|v| v.as_str().unwrap() != path)`
(`manifest.rs:51`): walks the array in order; `none` models the panic of
`as_str().unwrap()` on a non-string element, `some false` a found match
(short-circuit: later elements are not touched), `some true` no match. -/
def scanMembers : List TomlValue → String → Option Bool
  | [], _ => some true
  | v :: rest, s =>
    match v.asStr with
    | Option.none => Option.none
    | some t => if t = s then some false else scanMembers rest s

/-- Whether two values have the same TOML value type
(`toml_edit::Value::value_type` equality, used by `Array::push`). -/
def sameValueType : TomlValue → TomlValue → Bool
  | .str _, .str _ => true
  | .int _, .int _ => true
  | .boolV _, .boolV _ => true
  | .array _, .array _ => true
  | .inlineTable _, .inlineTable _ => true
  | _, _ => false

/-- `Array::push` of `toml_edit`: appends at the end, but fails (`Err`) when
the pushed value's type differs from the type of the array's existing
elements (TOML 0.5 arrays are homogeneous); an empty array accepts anything.
`none` models the failure, which `add_member` turns into a panic by
`.unwrap()`. -/
def arrayPush (elems : List TomlValue) (v : TomlValue) : Option (List TomlValue) :=
  match elems with
  | [] => some [v]
  | w :: _ => if sameValueType w v then some (elems ++ [v]) else Option.none

/-- Write-back of the members array through the mutable reference held by
`add_member`: the workspace table and its members slot are known to exist
when this runs. -/
def setMembersArray (root : Entries) (elems : List TomlValue) : Entries :=
  match tableGet root "workspace" with
  | .table imp wsEs =>
      tableSet root "workspace" (.table imp (tableSet wsEs "members" (.value (.array elems))))
  | _ => root

/-- `Manifest::add_member` (`manifest.rs:42`): validate absoluteness, convert
the path to UTF-8 text, fetch (creating lazily) `workspace.members`, scan for
an exact string match, and append only when no match was found. -/
def add_member (root : Entries) (p : RustPath) : StepResult :=
  match ensure_abs_path p with
  | .error e => .err e root
  | .ok () =>
    match p.toStr with
    | Option.none => .err .encodingError root
    | some s =>
      match get_workspace_members_section root with
      | .err e r => .err e r
      | .ok root1 elems =>
        match scanMembers elems s with
        | Option.none => .panic
        | some false => .ok root1
        | some true =>
          match arrayPush elems (.str s) with
          | Option.none => .panic
          | some elems1 => .ok (setMembersArray root1 elems1)

/-- `Manifest::get_patch_section` (`manifest.rs:98`):
`self.data["patch"].or_insert(toml_edit::table())`, then
`ensure!(patch.is_table(), ...)`, then `set_implicit(true)` on the table —
note the flag write happens after the check and mutates the tree even when a
later step fails. -/
def get_patch_section (root : Entries) : SectionResult :=
  match orInsert root "patch" (.table false []) with
  | (root1, .table _ es) => .ok (tableSet root1 "patch" (.table true es)) true es
  | (root1, _) => .err (.schemaError "patch" "table") root1

/-- `Manifest::get_patch_crates_io_section` (`manifest.rs:108`): fetch the
patch table, then `patch["crates-io"].or_insert(toml_edit::table())`, then
`ensure!(crates_io.is_table(), InvalidManifestFile("patch.crates-io", "table"))`.
The `or_insert` write lands before the shape check. -/
def get_patch_crates_io_section (root : Entries) : SectionResult :=
  match get_patch_section root with
  | .err e r => .err e r
  | .ok root1 pImp pEs =>
    match orInsert pEs "crates-io" (.table false []) with
    | (pEs1, item) =>
      let root2 := tableSet root1 "patch" (.table pImp pEs1)
      match item with
      | .table ciImp ciEs => .ok root2 ciImp ciEs
      | _ => .err (.schemaError "patch.crates-io" "table") root2

/-- Write-back of one `crates-io` entry through the mutable reference held by
`add_patch` (`crates_io_table_mut[crates_name] = item`): the patch and
crates-io tables are known to exist when this runs. -/
def setCratesIoEntry (root : Entries) (name : String) (v : Item) : Entries :=
  match tableGet root "patch" with
  | .table pImp pEs =>
    match tableGet pEs "crates-io" with
    | .table ciImp ciEs =>
        tableSet root "patch"
          (.table pImp (tableSet pEs "crates-io" (.table ciImp (tableSet ciEs name v))))
    | _ => root
  | _ => root

/-- The inline record `{ path = s }` built by `add_patch`
(`InlineTable::default()` followed by `get_or_insert("path", path)`). -/
def pathRecord (s : String) : Item :=
  .value (.inlineTable [("path", .str s)])

/-- `Manifest::add_patch` (`manifest.rs:82`): reject an empty crate name,
validate absoluteness, convert the path to UTF-8 text, fetch (creating
lazily) `patch.crates-io`, and set the crate's entry to the inline record
`{ path = s }`, replacing any prior value wholesale. -/
def add_patch (root : Entries) (cratesName : String) (p : RustPath) : StepResult :=
  if cratesName.isEmpty then .err .validationError root
  else
    match ensure_abs_path p with
    | .error e => .err e root
    | .ok () =>
      match p.toStr with
      | Option.none => .err .encodingError root
      | some s =>
        match get_patch_crates_io_section root with
        | .err e r => .err e r
        | .ok root1 _ _ => .ok (setCratesIoEntry root1 cratesName (pathRecord s))

/-- Modelled from the spec: a `toml_edit::Document` (the library is a
dependency, not under `src/`) is "an in-memory, order-preserving,
comment-preserving tree ... parsed from and serialized back to a textual
configuration format"; it retains the formatting of the source text it was
parsed from.  We record that source text next to the structural tree. -/
structure ParsedDoc where
  text : String
  tree : Entries
deriving Repr

/-- Modelled from the spec: `Document::to_string` on an *unmodified,
freshly-read* document "reproduces the original byte content ...
byte-for-byte" — it prints the retained source text.  The lifecycle layer
below serializes only such unmodified documents. -/
def documentToString (d : ParsedDoc) : String :=
  d.text

/-- `Manifest::read_from` (`manifest.rs:20`): `ensure_abs_path`,
`ensure_is_file`, then `fs::read_to_string` (an `IOError` when the file is
unreadable, modelled by `content = none`) and `parse::<Document>` (a
`ParseError` when the text is not valid TOML; the structural result of the
parse is supplied as the function `parseTree`, the formatting side is the
retained source text per the spec's round-trip contract). -/
def read_from (parseTree : String → Option Entries) (src : RustPath)
    (srcIsDir : Bool) (content : Option String) : Except Err ParsedDoc :=
  match ensure_abs_path src with
  | .error e => .error e
  | .ok () =>
    match ensure_is_file srcIsDir with
    | .error e => .error e
    | .ok () =>
      match content with
      | Option.none => .error .ioError
      | some s =>
        match parseTree s with
        | Option.none => .error .parseError
        | some t => .ok { text := s, tree := t }

/-- `Manifest::write_to` (`manifest.rs:32`): `ensure_abs_path`,
`ensure_is_file`, then `fs::write(dst, self.data.to_string())`.  On success
the returned string is the byte content written to the file. -/
def write_to (d : ParsedDoc) (dst : RustPath) (dstIsDir : Bool) : Except Err String :=
  match ensure_abs_path dst with
  | .error e => .error e
  | .ok () =>
    match ensure_is_file dstIsDir with
    | .error e => .error e
    | .ok () => .ok (documentToString d)

/-- Outcome of one CLI subcommand run over an already-read manifest tree:
either `write_to` was reached and the given tree was serialized to the file,
or the run failed before the write (the `?` operator returns early, so a
failed mutation writes nothing), or a panic aborted the process. -/
inductive ExecResult where
  | wrote (root : Entries)
  | failed (e : Err)
  | panicked
deriving Repr

/-- `CargoAddMember::execute` (`cli.rs:100`), from the point where the
manifest has been read into `root`: run `add_member`, and only on success
re-validate the manifest path and write the mutated tree back. -/
def executeAddMember (root : Entries) (manifestPath : RustPath)
    (manifestIsDir : Bool) (member : RustPath) : ExecResult :=
  match add_member root member with
  | .err e _ => .failed e
  | .panic => .panicked
  | .ok t =>
    match ensure_abs_path manifestPath with
    | .error e => .failed e
    | .ok () =>
      match ensure_is_file manifestIsDir with
      | .error e => .failed e
      | .ok () => .wrote t

/-- `CargoAddPatch::execute` (`cli.rs:122`), from the point where the
manifest has been read into `root`. -/
def executeAddPatch (root : Entries) (manifestPath : RustPath)
    (manifestIsDir : Bool) (crateName : String) (p : RustPath) : ExecResult :=
  match add_patch root crateName p with
  | .err e _ => .failed e
  | .panic => .panicked
  | .ok t =>
    match ensure_abs_path manifestPath with
    | .error e => .failed e
    | .ok () =>
      match ensure_is_file manifestIsDir with
      | .error e => .failed e
      | .ok () => .wrote t

/-- Nanoseconds per second: `Duration::from_secs(wait_nsecs)` compared
against `SystemTime::elapsed()` at nanosecond granularity. -/
def nsPerSec : Nat := 1000000000

/-- The retry loop of `FileLock::from_cli_args` (`cli.rs:60`):
`while wait_nsecs == 0 || timer.elapsed()? <= deadline { if try_lock ... }`.
`tryLock i` is the result of the `try_lock_exclusive` attempt of iteration
`i`, `elapsedNs i` the wall clock reading (in ns) at iteration `i`'s loop
condition.  The loop is given explicit fuel; `none` means the fuel ran out
with the loop still spinning (modelling non-termination).  When the loop
condition fails the function returns the lock-timeout error naming the
manifest path.  (Clock errors from `elapsed()?` are not modelled; with
`wait_nsecs == 0` the short-circuit `||` never consults the clock at all.) -/
def lockLoop (tryLock : Nat → Bool) (elapsedNs : Nat → Nat) (waitNsecs : Nat)
    (path : RustPath) : Nat → Nat → Option (Except Err Unit)
  | _, 0 => Option.none
  | i, fuel + 1 =>
    if waitNsecs = 0 ∨ elapsedNs i ≤ waitNsecs * nsPerSec then
      if tryLock i then some (.ok ())
      else lockLoop tryLock elapsedNs waitNsecs path (i + 1) fuel
    else some (.error (.lockTimeout path))

/-- `FileLock::from_cli_args` (`cli.rs:52`): without `--with-lock` no file is
opened and no lock is taken; otherwise the manifest file is opened (`openOk`,
an `?`-propagated `IOError` on failure) and the retry loop runs.  The `Bool`
of a successful result says whether a lock is held. -/
def from_cli_args (withLock : Bool) (openOk : Bool) (tryLock : Nat → Bool)
    (elapsedNs : Nat → Nat) (waitNsecs : Nat) (path : RustPath) (fuel : Nat) :
    Option (Except Err Bool) :=
  if !withLock then some (.ok false)
  else if !openOk then some (.error .ioError)
  else (lockLoop tryLock elapsedNs waitNsecs path 0 fuel).map (fun r => r.map (fun _ => true))

/-- The members array a document currently shows: the elements of
`workspace.members` when that slot holds an array, `[]` otherwise (the
sections are created lazily, so an absent section reads as empty). -/
def membersOfD (root : Entries) : List TomlValue :=
  match tableGet root "workspace" with
  | .table _ wsEs =>
    match tableGet wsEs "members" with
    | .value (.array elems) => elems
    | _ => []
  | _ => []

theorem tableGet_tableSet_self (es : Entries) (k : String) (v : Item) :
    tableGet (tableSet es k v) k = v := by
  induction es with
  | nil => simp [tableSet, tableGet]
  | cons hd tl ih =>
    obtain ⟨k', v'⟩ := hd
    by_cases h : k' = k
    · simp [tableSet, tableGet, h]
    · simp [tableSet, tableGet, h, ih]

theorem tableSet_tableSet_self (es : Entries) (k : String) (v w : Item) :
    tableSet (tableSet es k v) k w = tableSet es k w := by
  induction es with
  | nil => simp [tableSet]
  | cons hd tl ih =>
    obtain ⟨k', v'⟩ := hd
    by_cases h : k' = k
    · simp [tableSet, h]
    · simp [tableSet, h, ih]

theorem tableSet_get_self {es : Entries} {k : String} {v : Item}
    (h : tableGet es k = v) (hv : v ≠ Item.none) : tableSet es k v = es := by
  induction es with
  | nil => exact absurd h.symm hv
  | cons hd tl ih =>
    obtain ⟨k', v'⟩ := hd
    by_cases hk : k' = k
    · simp [tableGet, hk] at h
      simp [tableSet, hk, h]
    · simp [tableGet, hk] at h
      simp [tableSet, hk, ih h]

theorem countKey_tableSet_self (es : Entries) (k : String) (v : Item) :
    countKey (tableSet es k v) k =
      if countKey es k = 0 then 1 else countKey es k := by
  induction es with
  | nil => simp [tableSet, countKey]
  | cons hd tl ih =>
    obtain ⟨k', v'⟩ := hd
    by_cases h : k' = k
    · simp [tableSet, countKey, h]
    · simp [tableSet, countKey, h, ih]

theorem scanMembers_true :
    ∀ {elems : List TomlValue} {s : String}, scanMembers elems s = some true →
      ∀ v ∈ elems, ∃ t, v = TomlValue.str t ∧ t ≠ s := by
  intro elems s
  induction elems with
  | nil => intro _ v hv; simp at hv
  | cons w rest ih =>
    intro h v hv
    cases w with
    | str t =>
      by_cases hts : t = s
      · exact absurd h (by simp [scanMembers, TomlValue.asStr, hts])
      · rcases List.mem_cons.mp hv with rfl | hv'
        · exact ⟨t, rfl, hts⟩
        · exact ih (by simpa [scanMembers, TomlValue.asStr, hts] using h) v hv'
    | int n => exact absurd h (by simp [scanMembers, TomlValue.asStr])
    | boolV b => exact absurd h (by simp [scanMembers, TomlValue.asStr])
    | array xs => exact absurd h (by simp [scanMembers, TomlValue.asStr])
    | inlineTable kvs => exact absurd h (by simp [scanMembers, TomlValue.asStr])

theorem scanMembers_of_strings :
    ∀ {elems : List TomlValue} {s : String},
      (∀ v ∈ elems, ∃ t, v = TomlValue.str t) →
      scanMembers elems s ≠ Option.none := by
  intro elems s
  induction elems with
  | nil => intro _; simp [scanMembers]
  | cons w rest ih =>
    intro hall
    obtain ⟨t, rfl⟩ := hall w (List.mem_cons_self w rest)
    by_cases hts : t = s
    · simp [scanMembers, TomlValue.asStr, hts]
    · simpa [scanMembers, TomlValue.asStr, hts] using
        ih (fun v hv => hall v (List.mem_cons_of_mem _ hv))

theorem arrayPush_scan_true {elems : List TomlValue} {s : String}
    (h : scanMembers elems s = some true) :
    arrayPush elems (.str s) = some (elems ++ [TomlValue.str s]) := by
  cases elems with
  | nil => rfl
  | cons w rest =>
    obtain ⟨t, rfl, _⟩ := scanMembers_true h w (List.mem_cons_self w rest)
    simp [arrayPush, sameValueType]

theorem scanMembers_append_self :
    ∀ {elems : List TomlValue} {s : String}, scanMembers elems s = some true →
      scanMembers (elems ++ [TomlValue.str s]) s = some false := by
  intro elems s
  induction elems with
  | nil => intro _; simp [scanMembers, TomlValue.asStr]
  | cons w rest ih =>
    intro h
    obtain ⟨t, rfl, hts⟩ := scanMembers_true h w (List.mem_cons_self w rest)
    have h' : scanMembers rest s = some true := by
      simpa [scanMembers, TomlValue.asStr, hts] using h
    simpa [scanMembers, TomlValue.asStr, hts] using ih h'

theorem gwms_of_absent {root : Entries}
    (h : tableGet root "workspace" = Item.none) :
    get_workspace_members_section root =
      .ok (tableSet root "workspace"
        (.table false [("members", .value (.array []))])) [] := by
  simp [get_workspace_members_section, get_workspace_section, orInsert, h,
    tableGet_tableSet_self, tableSet_tableSet_self, tableGet, tableSet]

theorem gwms_of_no_members {root wsEs : Entries} {imp : Bool}
    (h1 : tableGet root "workspace" = Item.table imp wsEs)
    (h2 : tableGet wsEs "members" = Item.none) :
    get_workspace_members_section root =
      .ok (tableSet root "workspace"
        (.table imp (tableSet wsEs "members" (.value (.array []))))) [] := by
  simp [get_workspace_members_section, get_workspace_section, orInsert, h1, h2]

theorem gwms_of_members {root wsEs : Entries} {imp : Bool} {elems : List TomlValue}
    (h1 : tableGet root "workspace" = Item.table imp wsEs)
    (h2 : tableGet wsEs "members" = Item.value (.array elems)) :
    get_workspace_members_section root =
      .ok (tableSet root "workspace" (.table imp wsEs)) elems := by
  simp [get_workspace_members_section, get_workspace_section, orInsert, h1, h2]

theorem gwms_of_bad_workspace {root : Entries}
    (h1 : (tableGet root "workspace").isNone = false)
    (h2 : (tableGet root "workspace").isTable = false) :
    get_workspace_members_section root =
      .err (.schemaError "workspace" "table") root := by
  cases hm : tableGet root "workspace" with
  | none => rw [hm] at h1; exact absurd h1 (by simp [Item.isNone])
  | table i t => rw [hm] at h2; exact absurd h2 (by simp [Item.isTable])
  | value v =>
      simp [get_workspace_members_section, get_workspace_section, orInsert, hm]
  | arrayOfTables ts =>
      simp [get_workspace_members_section, get_workspace_section, orInsert, hm]

theorem gwms_of_bad_members {root wsEs : Entries} {imp : Bool}
    (h1 : tableGet root "workspace" = Item.table imp wsEs)
    (h2 : (tableGet wsEs "members").isNone = false)
    (h3 : (tableGet wsEs "members").isArray = false) :
    get_workspace_members_section root =
      .err (.schemaError "workspace.members" "array")
        (tableSet root "workspace" (.table imp wsEs)) := by
  cases hm : tableGet wsEs "members" with
  | none => rw [hm] at h2; exact absurd h2 (by simp [Item.isNone])
  | value v =>
      cases v with
      | array elems => rw [hm] at h3; exact absurd h3 (by simp [Item.isArray])
      | str s =>
          simp [get_workspace_members_section, get_workspace_section, orInsert, h1, hm]
      | int n =>
          simp [get_workspace_members_section, get_workspace_section, orInsert, h1, hm]
      | boolV b =>
          simp [get_workspace_members_section, get_workspace_section, orInsert, h1, hm]
      | inlineTable kvs =>
          simp [get_workspace_members_section, get_workspace_section, orInsert, h1, hm]
  | table i t =>
      simp [get_workspace_members_section, get_workspace_section, orInsert, h1, hm]
  | arrayOfTables ts =>
      simp [get_workspace_members_section, get_workspace_section, orInsert, h1, hm]

theorem gpcis_of_absent {root : Entries}
    (h : tableGet root "patch" = Item.none) :
    get_patch_crates_io_section root =
      .ok (tableSet root "patch"
        (.table true [("crates-io", .table false [])])) false [] := by
  simp [get_patch_crates_io_section, get_patch_section, orInsert, h,
    tableGet_tableSet_self, tableSet_tableSet_self, tableGet, tableSet]

theorem gpcis_of_no_crates_io {root pEs : Entries} {pImp : Bool}
    (h1 : tableGet root "patch" = Item.table pImp pEs)
    (h2 : tableGet pEs "crates-io" = Item.none) :
    get_patch_crates_io_section root =
      .ok (tableSet root "patch"
        (.table true (tableSet pEs "crates-io" (.table false [])))) false [] := by
  simp [get_patch_crates_io_section, get_patch_section, orInsert, h1, h2,
    tableSet_tableSet_self]

theorem gpcis_of_crates_io {root pEs ciEs : Entries} {pImp ciImp : Bool}
    (h1 : tableGet root "patch" = Item.table pImp pEs)
    (h2 : tableGet pEs "crates-io" = Item.table ciImp ciEs) :
    get_patch_crates_io_section root =
      .ok (tableSet root "patch" (.table true pEs)) ciImp ciEs := by
  simp [get_patch_crates_io_section, get_patch_section, orInsert, h1, h2,
    tableSet_tableSet_self]

theorem gpcis_of_bad_patch {root : Entries}
    (h1 : (tableGet root "patch").isNone = false)
    (h2 : (tableGet root "patch").isTable = false) :
    get_patch_crates_io_section root =
      .err (.schemaError "patch" "table") root := by
  cases hm : tableGet root "patch" with
  | none => rw [hm] at h1; exact absurd h1 (by simp [Item.isNone])
  | table i t => rw [hm] at h2; exact absurd h2 (by simp [Item.isTable])
  | value v =>
      simp [get_patch_crates_io_section, get_patch_section, orInsert, hm]
  | arrayOfTables ts =>
      simp [get_patch_crates_io_section, get_patch_section, orInsert, hm]

theorem gpcis_of_bad_crates_io {root pEs : Entries} {pImp : Bool}
    (h1 : tableGet root "patch" = Item.table pImp pEs)
    (h2 : (tableGet pEs "crates-io").isNone = false)
    (h3 : (tableGet pEs "crates-io").isTable = false) :
    get_patch_crates_io_section root =
      .err (.schemaError "patch.crates-io" "table")
        (tableSet root "patch" (.table true pEs)) := by
  cases hm : tableGet pEs "crates-io" with
  | none => rw [hm] at h2; exact absurd h2 (by simp [Item.isNone])
  | table i t => rw [hm] at h3; exact absurd h3 (by simp [Item.isTable])
  | value v =>
      simp [get_patch_crates_io_section, get_patch_section, orInsert, h1, hm,
        tableSet_tableSet_self]
  | arrayOfTables ts =>
      simp [get_patch_crates_io_section, get_patch_section, orInsert, h1, hm,
        tableSet_tableSet_self]

theorem setMembersArray_eq {root wsEs : Entries} {imp : Bool}
    (h : tableGet root "workspace" = Item.table imp wsEs) (elems : List TomlValue) :
    setMembersArray root elems =
      tableSet root "workspace"
        (.table imp (tableSet wsEs "members" (.value (.array elems)))) := by
  simp [setMembersArray, h]

theorem setCratesIoEntry_eq {root pEs ciEs : Entries} {pImp ciImp : Bool}
    (h1 : tableGet root "patch" = Item.table pImp pEs)
    (h2 : tableGet pEs "crates-io" = Item.table ciImp ciEs)
    (name : String) (v : Item) :
    setCratesIoEntry root name v =
      tableSet root "patch"
        (.table pImp (tableSet pEs "crates-io"
          (.table ciImp (tableSet ciEs name v)))) := by
  simp [setCratesIoEntry, h1, h2]

theorem add_member_utf8 {root : Entries} {s : String}
    (hs : (RustPath.utf8 s).isAbsolute = true) :
    add_member root (.utf8 s) =
      (match get_workspace_members_section root with
      | .err e r => .err e r
      | .ok root1 elems =>
        match scanMembers elems s with
        | Option.none => .panic
        | some false => .ok root1
        | some true =>
          match arrayPush elems (.str s) with
          | Option.none => .panic
          | some elems1 => .ok (setMembersArray root1 elems1)) := by
  simp [add_member, ensure_abs_path, RustPath.toStr, hs]

theorem add_patch_utf8 {root : Entries} {name : String} {s : String}
    (hn : name.isEmpty = false) (hs : (RustPath.utf8 s).isAbsolute = true) :
    add_patch root name (.utf8 s) =
      (match get_patch_crates_io_section root with
      | .err e r => .err e r
      | .ok root1 _ _ => .ok (setCratesIoEntry root1 name (pathRecord s))) := by
  simp [add_patch, ensure_abs_path, RustPath.toStr, hn, hs]

theorem add_member_ok_path {root : Entries} {p : RustPath} {root' : Entries}
    (h : add_member root p = .ok root') :
    ∃ s, p = RustPath.utf8 s ∧ (RustPath.utf8 s).isAbsolute = true := by
  cases p with
  | utf8 s =>
    by_cases hs : (RustPath.utf8 s).isAbsolute = true
    · exact ⟨s, rfl, hs⟩
    · exact absurd h (by simp [add_member, ensure_abs_path, hs])
  | nonUtf8 bs =>
    refine absurd h ?_
    by_cases hb : (bs.head? = some 47)
    · simp [add_member, ensure_abs_path, RustPath.isAbsolute, RustPath.toStr, hb]
    · simp [add_member, ensure_abs_path, RustPath.isAbsolute, RustPath.toStr, hb]

theorem add_member_absent {root : Entries} {s : String}
    (hs : (RustPath.utf8 s).isAbsolute = true)
    (hw : tableGet root "workspace" = Item.none) :
    add_member root (.utf8 s) =
      .ok (tableSet root "workspace"
        (.table false [("members", .value (.array [TomlValue.str s]))])) := by
  rw [add_member_utf8 hs, gwms_of_absent hw]
  simp [scanMembers, arrayPush, setMembersArray, tableGet_tableSet_self,
    tableSet_tableSet_self, tableSet]

theorem add_member_no_members {root wsEs : Entries} {imp : Bool} {s : String}
    (hs : (RustPath.utf8 s).isAbsolute = true)
    (hw : tableGet root "workspace" = Item.table imp wsEs)
    (hm : tableGet wsEs "members" = Item.none) :
    add_member root (.utf8 s) =
      .ok (tableSet root "workspace"
        (.table imp (tableSet wsEs "members"
          (.value (.array [TomlValue.str s]))))) := by
  rw [add_member_utf8 hs, gwms_of_no_members hw hm]
  simp [scanMembers, arrayPush, setMembersArray, tableGet_tableSet_self,
    tableSet_tableSet_self]

theorem add_member_push {root wsEs : Entries} {imp : Bool} {s : String}
    {elems : List TomlValue}
    (hs : (RustPath.utf8 s).isAbsolute = true)
    (hw : tableGet root "workspace" = Item.table imp wsEs)
    (hm : tableGet wsEs "members" = Item.value (.array elems))
    (hscan : scanMembers elems s = some true) :
    add_member root (.utf8 s) =
      .ok (tableSet root "workspace"
        (.table imp (tableSet wsEs "members"
          (.value (.array (elems ++ [TomlValue.str s])))))) := by
  rw [add_member_utf8 hs, gwms_of_members hw hm]
  simp [hscan, arrayPush_scan_true hscan, setMembersArray,
    tableGet_tableSet_self, tableSet_tableSet_self]

theorem add_member_dup {root wsEs : Entries} {imp : Bool} {s : String}
    {elems : List TomlValue}
    (hs : (RustPath.utf8 s).isAbsolute = true)
    (hw : tableGet root "workspace" = Item.table imp wsEs)
    (hm : tableGet wsEs "members" = Item.value (.array elems))
    (hscan : scanMembers elems s = some false) :
    add_member root (.utf8 s) =
      .ok (tableSet root "workspace" (.table imp wsEs)) := by
  rw [add_member_utf8 hs, gwms_of_members hw hm]
  simp [hscan]

/-- Normal form of a successful `add_member`: the resulting tree stores a
members array under `workspace.members`, that array is the old one either
unchanged (the path was already present) or with the path appended at the
end, and scanning the new array for the path finds it. -/
theorem add_member_ok_nf {root : Entries} {s : String} {root' : Entries}
    (hs : (RustPath.utf8 s).isAbsolute = true) (h : add_member root (.utf8 s) = .ok root') :
    ∃ imp wsEs elems,
      root' = tableSet root "workspace"
        (.table imp (tableSet wsEs "members" (.value (.array elems)))) ∧
      membersOfD root' = elems ∧
      scanMembers elems s = some false ∧
      (elems = membersOfD root ∨
        (elems = membersOfD root ++ [TomlValue.str s] ∧
          scanMembers (membersOfD root) s = some true)) := by
  cases hw : tableGet root "workspace" with
  | none =>
    rw [add_member_absent hs hw] at h
    simp only [StepResult.ok.injEq] at h
    subst h
    refine ⟨false, [], [TomlValue.str s], by simp [tableSet], ?_, ?_, ?_⟩
    · simp [membersOfD, tableGet_tableSet_self, tableGet]
    · simp [scanMembers, TomlValue.asStr]
    · right
      exact ⟨by simp [membersOfD, hw], by simp [membersOfD, hw, scanMembers]⟩
  | table imp wsEs =>
    cases hm : tableGet wsEs "members" with
    | none =>
      rw [add_member_no_members hs hw hm] at h
      simp only [StepResult.ok.injEq] at h
      subst h
      refine ⟨imp, wsEs, [TomlValue.str s], rfl, ?_, ?_, ?_⟩
      · simp [membersOfD, tableGet_tableSet_self]
      · simp [scanMembers, TomlValue.asStr]
      · right
        exact ⟨by simp [membersOfD, hw, hm], by simp [membersOfD, hw, hm, scanMembers]⟩
    | value v =>
      cases v with
      | array elems =>
        cases hscan : scanMembers elems s with
        | none =>
          rw [add_member_utf8 hs, gwms_of_members hw hm] at h
          simp [hscan] at h
        | some b =>
          cases b with
          | false =>
            rw [add_member_dup hs hw hm hscan] at h
            simp only [StepResult.ok.injEq] at h
            subst h
            refine ⟨imp, wsEs, elems, ?_, ?_, hscan, Or.inl ?_⟩
            · rw [tableSet_get_self hm (by simp)]
            · simp [membersOfD, tableGet_tableSet_self, hm]
            · simp [membersOfD, hw, hm]
          | true =>
            rw [add_member_push hs hw hm hscan] at h
            simp only [StepResult.ok.injEq] at h
            subst h
            refine ⟨imp, wsEs, elems ++ [TomlValue.str s], rfl, ?_,
              scanMembers_append_self hscan, ?_⟩
            · simp [membersOfD, tableGet_tableSet_self]
            · right
              exact ⟨by simp [membersOfD, hw, hm], by simpa [membersOfD, hw, hm] using hscan⟩
      | str t =>
        rw [add_member_utf8 hs,
          gwms_of_bad_members hw (by rw [hm]; rfl) (by rw [hm]; rfl)] at h
        simp at h
      | int n =>
        rw [add_member_utf8 hs,
          gwms_of_bad_members hw (by rw [hm]; rfl) (by rw [hm]; rfl)] at h
        simp at h
      | boolV b =>
        rw [add_member_utf8 hs,
          gwms_of_bad_members hw (by rw [hm]; rfl) (by rw [hm]; rfl)] at h
        simp at h
      | inlineTable kvs =>
        rw [add_member_utf8 hs,
          gwms_of_bad_members hw (by rw [hm]; rfl) (by rw [hm]; rfl)] at h
        simp at h
    | table i t =>
      rw [add_member_utf8 hs,
        gwms_of_bad_members hw (by rw [hm]; rfl) (by rw [hm]; rfl)] at h
      simp at h
    | arrayOfTables ts =>
      rw [add_member_utf8 hs,
        gwms_of_bad_members hw (by rw [hm]; rfl) (by rw [hm]; rfl)] at h
      simp at h
  | value v =>
    rw [add_member_utf8 hs,
      gwms_of_bad_workspace (by rw [hw]; rfl) (by rw [hw]; rfl)] at h
    simp at h
  | arrayOfTables ts =>
    rw [add_member_utf8 hs,
      gwms_of_bad_workspace (by rw [hw]; rfl) (by rw [hw]; rfl)] at h
    simp at h

theorem add_patch_absent {root : Entries} {name s : String}
    (hn : name.isEmpty = false) (hs : (RustPath.utf8 s).isAbsolute = true)
    (hw : tableGet root "patch" = Item.none) :
    add_patch root name (.utf8 s) =
      .ok (tableSet root "patch"
        (.table true [("crates-io", .table false [(name, pathRecord s)])])) := by
  rw [add_patch_utf8 hn hs, gpcis_of_absent hw]
  simp [setCratesIoEntry, tableGet_tableSet_self, tableSet_tableSet_self,
    tableGet, tableSet]

theorem add_patch_no_crates_io {root pEs : Entries} {pImp : Bool} {name s : String}
    (hn : name.isEmpty = false) (hs : (RustPath.utf8 s).isAbsolute = true)
    (hw : tableGet root "patch" = Item.table pImp pEs)
    (hc : tableGet pEs "crates-io" = Item.none) :
    add_patch root name (.utf8 s) =
      .ok (tableSet root "patch"
        (.table true (tableSet pEs "crates-io"
          (.table false [(name, pathRecord s)])))) := by
  rw [add_patch_utf8 hn hs, gpcis_of_no_crates_io hw hc]
  simp [setCratesIoEntry, tableGet_tableSet_self, tableSet_tableSet_self,
    tableGet, tableSet]

theorem add_patch_upsert {root pEs ciEs : Entries} {pImp ciImp : Bool}
    {name s : String}
    (hn : name.isEmpty = false) (hs : (RustPath.utf8 s).isAbsolute = true)
    (hw : tableGet root "patch" = Item.table pImp pEs)
    (hc : tableGet pEs "crates-io" = Item.table ciImp ciEs) :
    add_patch root name (.utf8 s) =
      .ok (tableSet root "patch"
        (.table true (tableSet pEs "crates-io"
          (.table ciImp (tableSet ciEs name (pathRecord s)))))) := by
  rw [add_patch_utf8 hn hs, gpcis_of_crates_io hw hc]
  simp [setCratesIoEntry, tableGet_tableSet_self, tableSet_tableSet_self, hc]

/-- Shape precondition under which `add_patch` succeeds: the `patch` slot is
absent or a table, the `crates-io` slot below it is absent or a table, and
the crate's key occurs at most once (always the case for a parsed TOML
table, whose keys are unique). -/
def patchShapeOk (root : Entries) (name : String) : Bool :=
  match tableGet root "patch" with
  | .none => true
  | .table _ pEs =>
    match tableGet pEs "crates-io" with
    | .none => true
    | .table _ ciEs => decide (countKey ciEs name ≤ 1)
    | _ => false
  | _ => false

theorem add_patch_ok_of_shape {root : Entries} {name s : String}
    (hn : name.isEmpty = false) (hs : (RustPath.utf8 s).isAbsolute = true)
    (hshape : patchShapeOk root name = true) :
    ∃ pEs ciImp ciEs,
      add_patch root name (.utf8 s) = .ok (tableSet root "patch" (.table true pEs)) ∧
      tableGet pEs "crates-io" = Item.table ciImp ciEs ∧
      countKey ciEs name = 1 ∧
      tableGet ciEs name = pathRecord s := by
  cases hw : tableGet root "patch" with
  | none =>
    refine ⟨[("crates-io", .table false [(name, pathRecord s)])], false,
      [(name, pathRecord s)], add_patch_absent hn hs hw, ?_, ?_, ?_⟩
    · simp [tableGet]
    · simp [countKey]
    · simp [tableGet]
  | table pImp pEs =>
    cases hc : tableGet pEs "crates-io" with
    | none =>
      refine ⟨tableSet pEs "crates-io" (.table false [(name, pathRecord s)]), false,
        [(name, pathRecord s)], add_patch_no_crates_io hn hs hw hc,
        tableGet_tableSet_self _ _ _, ?_, ?_⟩
      · simp [countKey]
      · simp [tableGet]
    | table ciImp ciEs =>
      have hcount : countKey ciEs name ≤ 1 := by
        have h2 := hshape
        simp [patchShapeOk, hw, hc] at h2
        exact h2
      refine ⟨tableSet pEs "crates-io" (.table ciImp (tableSet ciEs name (pathRecord s))),
        ciImp, tableSet ciEs name (pathRecord s), add_patch_upsert hn hs hw hc,
        tableGet_tableSet_self _ _ _, ?_, tableGet_tableSet_self _ _ _⟩
      rw [countKey_tableSet_self]
      split <;> omega
    | value v =>
      exact absurd hshape (by simp [patchShapeOk, hw, hc])
    | arrayOfTables ts =>
      exact absurd hshape (by simp [patchShapeOk, hw, hc])
  | value v =>
    exact absurd hshape (by simp [patchShapeOk, hw])
  | arrayOfTables ts =>
    exact absurd hshape (by simp [patchShapeOk, hw])

theorem gwms_err_inv {root : Entries} {e : Err} {r : Entries}
    (h : get_workspace_members_section root = .err e r) :
    ∃ k x, e = Err.schemaError k x := by
  cases hw : tableGet root "workspace" with
  | none => rw [gwms_of_absent hw] at h; simp at h
  | table imp wsEs =>
    cases hm : tableGet wsEs "members" with
    | none => rw [gwms_of_no_members hw hm] at h; simp at h
    | value v =>
      cases v with
      | array elems => rw [gwms_of_members hw hm] at h; simp at h
      | str t =>
        rw [gwms_of_bad_members hw (by rw [hm]; rfl) (by rw [hm]; rfl)] at h
        simp at h
        exact ⟨"workspace.members", "array", h.1.symm⟩
      | int n =>
        rw [gwms_of_bad_members hw (by rw [hm]; rfl) (by rw [hm]; rfl)] at h
        simp at h
        exact ⟨"workspace.members", "array", h.1.symm⟩
      | boolV b =>
        rw [gwms_of_bad_members hw (by rw [hm]; rfl) (by rw [hm]; rfl)] at h
        simp at h
        exact ⟨"workspace.members", "array", h.1.symm⟩
      | inlineTable kvs =>
        rw [gwms_of_bad_members hw (by rw [hm]; rfl) (by rw [hm]; rfl)] at h
        simp at h
        exact ⟨"workspace.members", "array", h.1.symm⟩
    | table i t =>
      rw [gwms_of_bad_members hw (by rw [hm]; rfl) (by rw [hm]; rfl)] at h
      simp at h
      exact ⟨"workspace.members", "array", h.1.symm⟩
    | arrayOfTables ts =>
      rw [gwms_of_bad_members hw (by rw [hm]; rfl) (by rw [hm]; rfl)] at h
      simp at h
      exact ⟨"workspace.members", "array", h.1.symm⟩
  | value v =>
    rw [gwms_of_bad_workspace (by rw [hw]; rfl) (by rw [hw]; rfl)] at h
    simp at h
    exact ⟨"workspace", "table", h.1.symm⟩
  | arrayOfTables ts =>
    rw [gwms_of_bad_workspace (by rw [hw]; rfl) (by rw [hw]; rfl)] at h
    simp at h
    exact ⟨"workspace", "table", h.1.symm⟩

theorem gpcis_err_inv {root : Entries} {e : Err} {r : Entries}
    (h : get_patch_crates_io_section root = .err e r) :
    ∃ k x, e = Err.schemaError k x := by
  cases hw : tableGet root "patch" with
  | none => rw [gpcis_of_absent hw] at h; simp at h
  | table pImp pEs =>
    cases hc : tableGet pEs "crates-io" with
    | none => rw [gpcis_of_no_crates_io hw hc] at h; simp at h
    | table i t => rw [gpcis_of_crates_io hw hc] at h; simp at h
    | value v =>
      rw [gpcis_of_bad_crates_io hw (by rw [hc]; rfl) (by rw [hc]; rfl)] at h
      simp at h
      exact ⟨"patch.crates-io", "table", h.1.symm⟩
    | arrayOfTables ts =>
      rw [gpcis_of_bad_crates_io hw (by rw [hc]; rfl) (by rw [hc]; rfl)] at h
      simp at h
      exact ⟨"patch.crates-io", "table", h.1.symm⟩
  | value v =>
    rw [gpcis_of_bad_patch (by rw [hw]; rfl) (by rw [hw]; rfl)] at h
    simp at h
    exact ⟨"patch", "table", h.1.symm⟩
  | arrayOfTables ts =>
    rw [gpcis_of_bad_patch (by rw [hw]; rfl) (by rw [hw]; rfl)] at h
    simp at h
    exact ⟨"patch", "table", h.1.symm⟩

theorem add_member_err_inv {root : Entries} {p : RustPath} {e : Err} {d : Entries}
    (h : add_member root p = .err e d) :
    (e = Err.validationError ∧ d = root) ∨ (e = Err.encodingError ∧ d = root) ∨
      ∃ k x, e = Err.schemaError k x := by
  cases p with
  | nonUtf8 bs =>
    by_cases hb : bs.head? = some (47 : Nat)
    · simp [add_member, ensure_abs_path, RustPath.isAbsolute, RustPath.toStr, hb] at h
      obtain ⟨rfl, rfl⟩ := h
      exact Or.inr (Or.inl ⟨rfl, rfl⟩)
    · simp [add_member, ensure_abs_path, RustPath.isAbsolute, RustPath.toStr, hb] at h
      obtain ⟨rfl, rfl⟩ := h
      exact Or.inl ⟨rfl, rfl⟩
  | utf8 s =>
    by_cases hs : (RustPath.utf8 s).isAbsolute = true
    · rw [add_member_utf8 hs] at h
      cases hg : get_workspace_members_section root with
      | err e' r' =>
        rw [hg] at h
        simp at h
        obtain ⟨rfl, rfl⟩ := h
        exact Or.inr (Or.inr (gwms_err_inv hg))
      | ok root1 elems =>
        rw [hg] at h
        cases hscan : scanMembers elems s with
        | none => simp [hscan] at h
        | some b =>
          cases b with
          | false => simp [hscan] at h
          | true =>
            cases hpush : arrayPush elems (.str s) with
            | none => simp [hscan, hpush] at h
            | some el => simp [hscan, hpush] at h
    · simp [add_member, ensure_abs_path, hs] at h
      obtain ⟨rfl, rfl⟩ := h
      exact Or.inl ⟨rfl, rfl⟩

theorem add_patch_err_inv {root : Entries} {name : String} {p : RustPath}
    {e : Err} {d : Entries} (h : add_patch root name p = .err e d) :
    (e = Err.validationError ∧ d = root) ∨ (e = Err.encodingError ∧ d = root) ∨
      ∃ k x, e = Err.schemaError k x := by
  by_cases hn : name.isEmpty = true
  · simp [add_patch, hn] at h
    obtain ⟨rfl, rfl⟩ := h
    exact Or.inl ⟨rfl, rfl⟩
  · cases p with
    | nonUtf8 bs =>
      by_cases hb : bs.head? = some (47 : Nat)
      · simp [add_patch, hn, ensure_abs_path, RustPath.isAbsolute, RustPath.toStr, hb] at h
        obtain ⟨rfl, rfl⟩ := h
        exact Or.inr (Or.inl ⟨rfl, rfl⟩)
      · simp [add_patch, hn, ensure_abs_path, RustPath.isAbsolute, RustPath.toStr, hb] at h
        obtain ⟨rfl, rfl⟩ := h
        exact Or.inl ⟨rfl, rfl⟩
    | utf8 s =>
      by_cases hs : (RustPath.utf8 s).isAbsolute = true
      · rw [add_patch_utf8 (by simpa using hn) hs] at h
        cases hg : get_patch_crates_io_section root with
        | err e' r' =>
          rw [hg] at h
          simp at h
          obtain ⟨rfl, rfl⟩ := h
          exact Or.inr (Or.inr (gpcis_err_inv hg))
        | ok root1 i t => rw [hg] at h; simp at h
      · simp [add_patch, hn, ensure_abs_path, hs] at h
        obtain ⟨rfl, rfl⟩ := h
        exact Or.inl ⟨rfl, rfl⟩

/-- A sequence of `add_member` calls (the CLI is invoked once per member; the
fold chains the successive in-memory trees), stopping at the first failure. -/
def addMemberList : Entries → List RustPath → StepResult
  | root, [] => .ok root
  | root, p :: ps =>
    match add_member root p with
    | .ok r => addMemberList r ps
    | .err e r => .err e r
    | .panic => .panic

/-- A sequence of `add_patch` calls with one crate name and successive paths,
stopping at the first failure. -/
def addPatchList : Entries → String → List String → StepResult
  | root, _, [] => .ok root
  | root, name, s :: ss =>
    match add_patch root name (.utf8 s) with
    | .ok r => addPatchList r name ss
    | .err e r => .err e r
    | .panic => .panic

/-- C1: for every manifest tree and every absolute path, calling
`add_member` twice with the same path yields the same tree (and hence the
same `workspace.members` array) as calling it once: the second call is a
no-op, whatever the prior contents of the members array were. -/
theorem C1_add_member_idempotent {root : Entries} {p : RustPath} {root' : Entries}
    (h : add_member root p = .ok root') : add_member root' p = .ok root' := by
  obtain ⟨s, rfl, hs⟩ := add_member_ok_path h
  obtain ⟨imp, wsEs, elems, hroot, _, hscan, _⟩ := add_member_ok_nf hs h
  subst hroot
  rw [add_member_dup hs (tableGet_tableSet_self _ _ _) (tableGet_tableSet_self _ _ _) hscan,
    tableSet_tableSet_self]

/-- Witness for C1 at a concrete input: adding `/test1` to the empty
document and then adding it again returns the tree of the first call. -/
theorem C1_witness :
    add_member
      [("workspace", Item.table false
        [("members", Item.value (.array [TomlValue.str "/test1"]))])]
      (.utf8 "/test1") =
      .ok [("workspace", Item.table false
        [("members", Item.value (.array [TomlValue.str "/test1"]))])] :=
  @C1_add_member_idempotent [] (.utf8 "/test1")
    [("workspace", Item.table false
      [("members", Item.value (.array [TomlValue.str "/test1"]))])] (by rfl)

/-- C5: over any sequence of successful `add_member` calls, the entries
already present in `workspace.members` survive unchanged and in order as a
prefix of the final array, and every newly added entry (appended at the end)
is the string of one of the added paths. -/
theorem C5_order_preservation {root : Entries} {ps : List RustPath} {root' : Entries}
    (h : addMemberList root ps = .ok root') :
    ∃ news, membersOfD root' = membersOfD root ++ news ∧
      ∀ v ∈ news, ∃ p ∈ ps, ∃ s, p = RustPath.utf8 s ∧ v = TomlValue.str s := by
  induction ps generalizing root with
  | nil =>
    simp [addMemberList] at h
    subst h
    exact ⟨[], by simp, by simp⟩
  | cons p ps ih =>
    cases hp : add_member root p with
    | ok r1 =>
      simp only [addMemberList, hp] at h
      obtain ⟨s, rfl, hs⟩ := add_member_ok_path hp
      obtain ⟨_, _, elems, _, hmem1, _, hd⟩ := add_member_ok_nf hs hp
      obtain ⟨news, hn1, hn2⟩ := ih h
      rcases hd with he | ⟨he, _⟩
      · refine ⟨news, by rw [hn1, hmem1, he], ?_⟩
        intro v hv
        obtain ⟨p', hp', hs'⟩ := hn2 v hv
        exact ⟨p', List.mem_cons_of_mem _ hp', hs'⟩
      · refine ⟨TomlValue.str s :: news, by rw [hn1, hmem1, he]; simp, ?_⟩
        intro v hv
        rcases List.mem_cons.mp hv with rfl | hv'
        · exact ⟨RustPath.utf8 s, List.mem_cons_self _ _, s, rfl, rfl⟩
        · obtain ⟨p', hp', hs'⟩ := hn2 v hv'
          exact ⟨p', List.mem_cons_of_mem _ hp', hs'⟩
    | err e r => simp [addMemberList, hp] at h
    | panic => simp [addMemberList, hp] at h

/-- Witness for C5 at a concrete input: the spec's scenario of adding
`/test1` then `/test2/test2` to an empty document. -/
theorem C5_witness :
    ∃ news,
      membersOfD [("workspace", Item.table false
        [("members", Item.value (.array
          [TomlValue.str "/test1", TomlValue.str "/test2/test2"]))])] =
        membersOfD ([] : Entries) ++ news ∧
      ∀ v ∈ news, ∃ p ∈ [RustPath.utf8 "/test1", RustPath.utf8 "/test2/test2"],
        ∃ s, p = RustPath.utf8 s ∧ v = TomlValue.str s :=
  @C5_order_preservation [] [RustPath.utf8 "/test1", RustPath.utf8 "/test2/test2"]
    [("workspace", Item.table false
      [("members", Item.value (.array
        [TomlValue.str "/test1", TomlValue.str "/test2/test2"]))])] (by rfl)

/-- C6: `workspace.members` keeps set semantics over an ordered sequence
across `add_member`: no duplicates are introduced when none were present,
the existing array survives as a prefix (order of first insertion), and a
path already present is ignored (the array is unchanged). -/
theorem C6_members_set_semantics {root : Entries} {p : RustPath} {root' : Entries}
    (h : add_member root p = .ok root') :
    ((membersOfD root).Nodup → (membersOfD root').Nodup) ∧
    (∃ news, membersOfD root' = membersOfD root ++ news) ∧
    (∀ s, p = RustPath.utf8 s → TomlValue.str s ∈ membersOfD root →
      membersOfD root' = membersOfD root) := by
  obtain ⟨s, rfl, hs⟩ := add_member_ok_path h
  obtain ⟨imp, wsEs, elems, _, hmem1, _, hd⟩ := add_member_ok_nf hs h
  rcases hd with he | ⟨he, hscan0⟩
  · exact ⟨by rw [hmem1, he]; exact id, ⟨[], by simp [hmem1, he]⟩,
      fun _ _ _ => by rw [hmem1, he]⟩
  · refine ⟨?_, ⟨[TomlValue.str s], by rw [hmem1, he]⟩, ?_⟩
    · intro hnd
      rw [hmem1, he, List.nodup_append]
      refine ⟨hnd, List.nodup_singleton _, fun a ha hb => ?_⟩
      rw [List.mem_singleton] at hb
      subst hb
      obtain ⟨t, hts, htne⟩ := scanMembers_true hscan0 _ ha
      injection hts with h2
      exact htne h2.symm
    · intro s' heq hmem
      injection heq with h2
      subst h2
      obtain ⟨t, hts, htne⟩ := scanMembers_true hscan0 _ hmem
      injection hts with h3
      exact (htne h3.symm).elim

/-- Witness for C6 at a concrete input: adding `/test1` to an empty
document. -/
theorem C6_witness :
    ((membersOfD ([] : Entries)).Nodup →
      (membersOfD [("workspace", Item.table false
        [("members", Item.value (.array [TomlValue.str "/test1"]))])]).Nodup) ∧
    (∃ news, membersOfD [("workspace", Item.table false
        [("members", Item.value (.array [TomlValue.str "/test1"]))])] =
      membersOfD ([] : Entries) ++ news) ∧
    (∀ s, RustPath.utf8 "/test1" = RustPath.utf8 s →
      TomlValue.str s ∈ membersOfD ([] : Entries) →
      membersOfD [("workspace", Item.table false
        [("members", Item.value (.array [TomlValue.str "/test1"]))])] =
        membersOfD ([] : Entries)) :=
  @C6_members_set_semantics [] (.utf8 "/test1")
    [("workspace", Item.table false
      [("members", Item.value (.array [TomlValue.str "/test1"]))])] (by rfl)

/-- C9: `add_member` cannot panic when every element already stored in
`workspace.members` is a string value (every internal `unwrap` then
succeeds); the precondition is needed: on a tree whose members array holds
the integer `1`, the scan's `as_str().unwrap()` panics. -/
theorem C9_panic_characterization :
    (∀ root p, (∀ v ∈ membersOfD root, ∃ t, v = TomlValue.str t) →
      add_member root p ≠ .panic) ∧
    add_member
      [("workspace", Item.table false
        [("members", Item.value (.array [TomlValue.int 1]))])]
      (.utf8 "/a") = .panic := by
  constructor
  · intro root p hall
    cases p with
    | nonUtf8 bs =>
      by_cases hb : bs.head? = some (47 : Nat)
      · simp [add_member, ensure_abs_path, RustPath.isAbsolute, RustPath.toStr, hb]
      · simp [add_member, ensure_abs_path, RustPath.isAbsolute, hb]
    | utf8 s =>
      by_cases hs : (RustPath.utf8 s).isAbsolute = true
      · cases hw : tableGet root "workspace" with
        | none => rw [add_member_absent hs hw]; simp
        | table imp wsEs =>
          cases hm : tableGet wsEs "members" with
          | none => rw [add_member_no_members hs hw hm]; simp
          | value v =>
            cases v with
            | array elems =>
              have helems : ∀ v ∈ elems, ∃ t, v = TomlValue.str t := by
                have hb : membersOfD root = elems := by simp [membersOfD, hw, hm]
                rw [hb] at hall
                exact hall
              cases hscan : scanMembers elems s with
              | none => exact absurd hscan (scanMembers_of_strings helems)
              | some b =>
                cases b with
                | false => rw [add_member_dup hs hw hm hscan]; simp
                | true => rw [add_member_push hs hw hm hscan]; simp
            | str t =>
              rw [add_member_utf8 hs,
                gwms_of_bad_members hw (by rw [hm]; rfl) (by rw [hm]; rfl)]
              simp
            | int n =>
              rw [add_member_utf8 hs,
                gwms_of_bad_members hw (by rw [hm]; rfl) (by rw [hm]; rfl)]
              simp
            | boolV b =>
              rw [add_member_utf8 hs,
                gwms_of_bad_members hw (by rw [hm]; rfl) (by rw [hm]; rfl)]
              simp
            | inlineTable kvs =>
              rw [add_member_utf8 hs,
                gwms_of_bad_members hw (by rw [hm]; rfl) (by rw [hm]; rfl)]
              simp
          | table i t =>
            rw [add_member_utf8 hs,
              gwms_of_bad_members hw (by rw [hm]; rfl) (by rw [hm]; rfl)]
            simp
          | arrayOfTables ts =>
            rw [add_member_utf8 hs,
              gwms_of_bad_members hw (by rw [hm]; rfl) (by rw [hm]; rfl)]
            simp
        | value v =>
          rw [add_member_utf8 hs,
            gwms_of_bad_workspace (by rw [hw]; rfl) (by rw [hw]; rfl)]
          simp
        | arrayOfTables ts =>
          rw [add_member_utf8 hs,
            gwms_of_bad_workspace (by rw [hw]; rfl) (by rw [hw]; rfl)]
          simp
      · simp [add_member, ensure_abs_path, hs]
  · rfl

/-- Witness for C9's universally quantified part at a concrete input: a
members array holding only strings never makes `add_member` panic. -/
theorem C9_witness :
    add_member
      [("workspace", Item.table false
        [("members", Item.value (.array [TomlValue.str "/x"]))])]
      (.utf8 "/a") ≠ .panic :=
  C9_panic_characterization.1 _ _ (by
    intro v hv
    simp [membersOfD, tableGet] at hv
    exact ⟨_, hv⟩)

/-- C10: a `ValidationError` (non-absolute path, empty crate name) or an
`EncodingError` (non-UTF-8 path) from `add_member` or `add_patch` leaves the
in-memory tree exactly as it was — these checks precede all tree access —
whereas a `SchemaError` failure can leave the tree changed (here
`add_patch` flips the existing `patch` table's `implicit` flag before
discovering that `crates-io` is not a table). -/
theorem C10_error_atomicity :
    (∀ root p d, add_member root p = .err Err.validationError d → d = root) ∧
    (∀ root p d, add_member root p = .err Err.encodingError d → d = root) ∧
    (∀ root name p d, add_patch root name p = .err Err.validationError d → d = root) ∧
    (∀ root name p d, add_patch root name p = .err Err.encodingError d → d = root) ∧
    (add_patch
        [("patch", Item.table false [("crates-io", Item.value (TomlValue.int 1))])]
        "x" (.utf8 "/a") =
      .err (.schemaError "patch.crates-io" "table")
        [("patch", Item.table true [("crates-io", Item.value (TomlValue.int 1))])] ∧
      [("patch", Item.table true [("crates-io", Item.value (TomlValue.int 1))])] ≠
        ([("patch", Item.table false
          [("crates-io", Item.value (TomlValue.int 1))])] : Entries)) := by
  refine ⟨?_, ?_, ?_, ?_, by rfl, by simp⟩
  · intro root p d h
    rcases add_member_err_inv h with ⟨_, hd⟩ | ⟨he, _⟩ | ⟨k, x, he⟩
    · exact hd
    · exact absurd he (by simp)
    · exact absurd he (by simp)
  · intro root p d h
    rcases add_member_err_inv h with ⟨he, _⟩ | ⟨_, hd⟩ | ⟨k, x, he⟩
    · exact absurd he (by simp)
    · exact hd
    · exact absurd he (by simp)
  · intro root name p d h
    rcases add_patch_err_inv h with ⟨_, hd⟩ | ⟨he, _⟩ | ⟨k, x, he⟩
    · exact hd
    · exact absurd he (by simp)
    · exact absurd he (by simp)
  · intro root name p d h
    rcases add_patch_err_inv h with ⟨he, _⟩ | ⟨_, hd⟩ | ⟨k, x, he⟩
    · exact absurd he (by simp)
    · exact hd
    · exact absurd he (by simp)

/-- Witness for C10's universally quantified parts at a concrete input:
`add_member` with the relative path `rel` fails with `ValidationError` and
leaves the empty tree empty. -/
theorem C10_witness : ([] : Entries) = [] :=
  C10_error_atomicity.1 [] (.utf8 "rel") [] (by rfl)

/-- C3: every `add_member`, `add_patch`, `read_from` or `write_to` call with
a non-absolute path fails with `ValidationError` (leaving the tree alone),
and `add_patch` with an empty crate name fails with `ValidationError`
whatever the path. -/
theorem C3_validation_rejection :
    (∀ root p, p.isAbsolute = false →
      add_member root p = .err .validationError root) ∧
    (∀ root name p, p.isAbsolute = false →
      add_patch root name p = .err .validationError root) ∧
    (∀ parseTree srcIsDir content p, p.isAbsolute = false →
      read_from parseTree p srcIsDir content = .error .validationError) ∧
    (∀ d p dstIsDir, p.isAbsolute = false →
      write_to d p dstIsDir = .error .validationError) ∧
    (∀ root p, add_patch root "" p = .err .validationError root) := by
  refine ⟨?_, ?_, ?_, ?_, ?_⟩
  · intro root p hp
    simp [add_member, ensure_abs_path, hp]
  · intro root name p hp
    by_cases hn : name.isEmpty = true
    · simp [add_patch, hn]
    · simp [add_patch, hn, ensure_abs_path, hp]
  · intro parseTree srcIsDir content p hp
    simp [read_from, ensure_abs_path, hp]
  · intro d p dstIsDir hp
    simp [write_to, ensure_abs_path, hp]
  · intro root p
    have he : "".isEmpty = true := rfl
    simp [add_patch, he]

/-- Witness for C3 at concrete inputs: the relative paths `test`, `./test`
and `../test` are all rejected, as is the empty crate name. -/
theorem C3_witness :
    add_member [] (.utf8 "test") = .err .validationError [] ∧
    add_patch [] "hoge" (.utf8 "./test") = .err .validationError [] ∧
    read_from (fun _ => some []) (.utf8 "../test") false (some "") =
      .error .validationError ∧
    write_to ⟨"", []⟩ (.utf8 "test") false = .error .validationError ∧
    add_patch [] "" (.utf8 "/test") = .err .validationError [] :=
  ⟨C3_validation_rejection.1 [] (.utf8 "test") (by rfl),
   C3_validation_rejection.2.1 [] "hoge" (.utf8 "./test") (by rfl),
   C3_validation_rejection.2.2.1 (fun _ => some []) false (some "") (.utf8 "../test") (by rfl),
   C3_validation_rejection.2.2.2.1 ⟨"", []⟩ (.utf8 "test") false (by rfl),
   C3_validation_rejection.2.2.2.2 [] (.utf8 "/test")⟩

/-- C4: when `workspace` (resp. `patch`, `workspace.members`,
`patch.crates-io`) already holds a value of the wrong shape, the CLI run of
`add_member` (resp. `add_patch`) fails with the `SchemaError` naming that
key and its expected kind, and the file write is never reached. -/
theorem C4_schema_rejection :
    (∀ root mp mid s, (RustPath.utf8 s).isAbsolute = true →
      (tableGet root "workspace").isNone = false →
      (tableGet root "workspace").isTable = false →
      executeAddMember root mp mid (.utf8 s) =
        .failed (.schemaError "workspace" "table")) ∧
    (∀ root mp mid s imp wsEs, (RustPath.utf8 s).isAbsolute = true →
      tableGet root "workspace" = Item.table imp wsEs →
      (tableGet wsEs "members").isNone = false →
      (tableGet wsEs "members").isArray = false →
      executeAddMember root mp mid (.utf8 s) =
        .failed (.schemaError "workspace.members" "array")) ∧
    (∀ root mp mid name s, name.isEmpty = false →
      (RustPath.utf8 s).isAbsolute = true →
      (tableGet root "patch").isNone = false →
      (tableGet root "patch").isTable = false →
      executeAddPatch root mp mid name (.utf8 s) =
        .failed (.schemaError "patch" "table")) ∧
    (∀ root mp mid name s pImp pEs, name.isEmpty = false →
      (RustPath.utf8 s).isAbsolute = true →
      tableGet root "patch" = Item.table pImp pEs →
      (tableGet pEs "crates-io").isNone = false →
      (tableGet pEs "crates-io").isTable = false →
      executeAddPatch root mp mid name (.utf8 s) =
        .failed (.schemaError "patch.crates-io" "table")) := by
  refine ⟨?_, ?_, ?_, ?_⟩
  · intro root mp mid s hs h1 h2
    rw [executeAddMember, add_member_utf8 hs, gwms_of_bad_workspace h1 h2]
  · intro root mp mid s imp wsEs hs hw h1 h2
    rw [executeAddMember, add_member_utf8 hs, gwms_of_bad_members hw h1 h2]
  · intro root mp mid name s hn hs h1 h2
    rw [executeAddPatch, add_patch_utf8 hn hs, gpcis_of_bad_patch h1 h2]
  · intro root mp mid name s pImp pEs hn hs hw h1 h2
    rw [executeAddPatch, add_patch_utf8 hn hs, gpcis_of_bad_crates_io hw h1 h2]

/-- Witness for C4 at concrete inputs: `workspace = 1` rejects `add_member`
with the `workspace`/`table` schema error, and `patch.crates-io = 1` rejects
`add_patch` with the `patch.crates-io`/`table` schema error; no write
happens in either run. -/
theorem C4_witness :
    executeAddMember [("workspace", Item.value (TomlValue.int 1))]
      (.utf8 "/m") false (.utf8 "/a") =
      .failed (.schemaError "workspace" "table") ∧
    executeAddPatch
      [("patch", Item.table false [("crates-io", Item.value (TomlValue.int 1))])]
      (.utf8 "/m") false "hoge" (.utf8 "/a") =
      .failed (.schemaError "patch.crates-io" "table") :=
  ⟨C4_schema_rejection.1 _ (.utf8 "/m") false "/a" (by rfl) (by rfl) (by rfl),
   C4_schema_rejection.2.2.2 _ (.utf8 "/m") false "hoge" "/a" _ _
     (by rfl) (by rfl) (by rfl) (by rfl) (by rfl)⟩

theorem addPatchList_cons_ok {root r1 : Entries} {name s : String}
    {ss : List String} (h : add_patch root name (.utf8 s) = .ok r1) :
    addPatchList root name (s :: ss) = addPatchList r1 name ss := by
  simp only [addPatchList, h]

/-- C2: with a non-empty crate name, N ≥ 1 successive `add_patch` calls on
well-shaped sections leave exactly one `patch.crates-io` entry for that
crate, holding the inline record with the last path supplied (each call
replaces the prior record wholesale). -/
theorem C2_add_patch_upsert {name : String} {root : Entries} {ss : List String}
    (hn : name.isEmpty = false) (hne : ss ≠ [])
    (habs : ∀ s ∈ ss, (RustPath.utf8 s).isAbsolute = true)
    (hshape : patchShapeOk root name = true) :
    ∃ root' pEs ciImp ciEs sl,
      addPatchList root name ss = .ok root' ∧
      ss.getLast? = some sl ∧
      tableGet root' "patch" = Item.table true pEs ∧
      tableGet pEs "crates-io" = Item.table ciImp ciEs ∧
      countKey ciEs name = 1 ∧
      tableGet ciEs name = pathRecord sl := by
  induction ss generalizing root with
  | nil => exact absurd rfl hne
  | cons s rest ih =>
    obtain ⟨pEs, ciImp, ciEs, hstep, hci, hcount, hget⟩ :=
      add_patch_ok_of_shape hn (habs s (List.mem_cons_self _ _)) hshape
    cases rest with
    | nil =>
      refine ⟨tableSet root "patch" (.table true pEs), pEs, ciImp, ciEs, s, ?_,
        rfl, tableGet_tableSet_self _ _ _, hci, hcount, hget⟩
      simp [addPatchList, hstep]
    | cons s2 rest2 =>
      have hshape1 :
          patchShapeOk (tableSet root "patch" (.table true pEs)) name = true := by
        simp [patchShapeOk, tableGet_tableSet_self, hci, hcount]
      obtain ⟨root', pEs', ciImp', ciEs', sl, hrec, hlast, hp1, hp2, hp3, hp4⟩ :=
        @ih (tableSet root "patch" (.table true pEs)) (by simp)
          (fun t ht => habs t (List.mem_cons_of_mem _ ht)) hshape1
      refine ⟨root', pEs', ciImp', ciEs', sl, ?_, ?_, hp1, hp2, hp3, hp4⟩
      · rw [addPatchList_cons_ok hstep]
        exact hrec
      · rw [List.getLast?_cons_cons]
        exact hlast

/-- Witness for C2 at a concrete input: the spec's scenario of patching
`hoge` twice; the surviving record holds the last path `/piyo`. -/
theorem C2_witness :
    ∃ root' pEs ciImp ciEs sl,
      addPatchList [] "hoge" ["/hoge", "/piyo"] = .ok root' ∧
      (["/hoge", "/piyo"] : List String).getLast? = some sl ∧
      tableGet root' "patch" = Item.table true pEs ∧
      tableGet pEs "crates-io" = Item.table ciImp ciEs ∧
      countKey ciEs "hoge" = 1 ∧
      tableGet ciEs "hoge" = pathRecord sl :=
  C2_add_patch_upsert (by rfl) (by simp) (by decide) (by rfl)

/-- C7: reading a readable, parseable manifest file and writing the
unmodified document back writes exactly the original byte content
(formatting, comments and unrelated sections included). -/
theorem C7_round_trip {parseTree : String → Option Entries} {src dst : RustPath}
    {s out : String} {d : ParsedDoc}
    (hr : read_from parseTree src false (some s) = .ok d)
    (hw : write_to d dst false = .ok out) : out = s := by
  cases habs : src.isAbsolute with
  | false => simp [read_from, ensure_abs_path, habs] at hr
  | true =>
    cases hp : parseTree s with
    | none => simp [read_from, ensure_abs_path, habs, ensure_is_file, hp] at hr
    | some t =>
      simp [read_from, ensure_abs_path, habs, ensure_is_file, hp] at hr
      cases habs2 : dst.isAbsolute with
      | false => simp [write_to, ensure_abs_path, habs2] at hw
      | true =>
        simp [write_to, ensure_abs_path, habs2, ensure_is_file,
          documentToString] at hw
        rw [← hw, ← hr]

/-- Witness for C7 at a concrete input: a parseable file with a comment
round-trips byte-for-byte. -/
theorem C7_witness :
    ("# c\n[workspace]\nmembers = []\n" : String) =
      "# c\n[workspace]\nmembers = []\n" :=
  @C7_round_trip (fun _ => some []) (.utf8 "/m") (.utf8 "/m")
    "# c\n[workspace]\nmembers = []\n" "# c\n[workspace]\nmembers = []\n"
    ⟨"# c\n[workspace]\nmembers = []\n", []⟩ (by rfl) (by rfl)

theorem lockLoop_zero_fuel {tryLock : Nat → Bool} {elapsedNs : Nat → Nat}
    {w : Nat} {path : RustPath} {i : Nat} :
    lockLoop tryLock elapsedNs w path i 0 = Option.none := rfl

theorem lockLoop_succ_fuel {tryLock : Nat → Bool} {elapsedNs : Nat → Nat}
    {w : Nat} {path : RustPath} {i fuel : Nat} :
    lockLoop tryLock elapsedNs w path i (fuel + 1) =
      if w = 0 ∨ elapsedNs i ≤ w * nsPerSec then
        if tryLock i then some (.ok ())
        else lockLoop tryLock elapsedNs w path (i + 1) fuel
      else some (.error (.lockTimeout path)) := rfl

theorem lockLoop_wait_forever {tryLock : Nat → Bool} {elapsedNs : Nat → Nat}
    {path : RustPath} :
    ∀ (fuel i : Nat) (r : Except Err Unit),
      lockLoop tryLock elapsedNs 0 path i fuel = some r → r = .ok () := by
  intro fuel
  induction fuel with
  | zero => intro i r h; simp [lockLoop_zero_fuel] at h
  | succ fuel ih =>
    intro i r h
    rw [lockLoop_succ_fuel] at h
    simp at h
    by_cases ht : tryLock i = true
    · simp [ht] at h
      exact h.symm
    · simp [ht] at h
      exact ih (i + 1) r h

theorem lockLoop_deadline {tryLock : Nat → Bool} {elapsedNs : Nat → Nat}
    {w : Nat} {path : RustPath} (hw : 0 < w) :
    ∀ (m i : Nat), w * nsPerSec < elapsedNs (i + m) →
      ∃ r, lockLoop tryLock elapsedNs w path i (m + 1) = some r ∧
        (r = .ok () ∨ r = .error (.lockTimeout path)) := by
  intro m
  induction m with
  | zero =>
    intro i hlt
    have hc : ¬(w = 0 ∨ elapsedNs i ≤ w * nsPerSec) := by
      rintro (h0 | hle)
      · omega
      · rw [Nat.add_zero] at hlt; omega
    exact ⟨.error (.lockTimeout path), by rw [lockLoop_succ_fuel, if_neg hc], Or.inr rfl⟩
  | succ m ih =>
    intro i hlt
    by_cases hc : (w = 0 ∨ elapsedNs i ≤ w * nsPerSec)
    · by_cases ht : tryLock i = true
      · exact ⟨.ok (), by rw [lockLoop_succ_fuel, if_pos hc, if_pos ht], Or.inl rfl⟩
      · obtain ⟨r, hr, hor⟩ :=
          ih (i + 1) (by rw [show i + 1 + m = i + (m + 1) by omega]; exact hlt)
        refine ⟨r, ?_, hor⟩
        rw [lockLoop_succ_fuel, if_pos hc, if_neg (by simpa using ht)]
        exact hr
    · exact ⟨.error (.lockTimeout path), by rw [lockLoop_succ_fuel, if_neg hc], Or.inr rfl⟩

/-- C8: with locking enabled, acquisition retries until the exclusive lock
is taken or the caller's timeout elapses.  With `wait_nsecs = 0` the loop
never gives up: however much fuel it is run with, the only result it can
deliver is a successfully held lock.  With a positive timeout, once the
wall clock passes the deadline the loop terminates, and a run that did not
acquire the lock fails with the lock-timeout error naming the manifest
path. -/
theorem C8_lock_acquisition :
    (∀ tryLock elapsedNs path fuel r,
      from_cli_args true true tryLock elapsedNs 0 path fuel = some r →
      r = .ok true) ∧
    (∀ tryLock elapsedNs w path N, 0 < w → w * nsPerSec < elapsedNs N →
      ∃ fuel r, from_cli_args true true tryLock elapsedNs w path fuel = some r ∧
        (r = .ok true ∨ r = .error (.lockTimeout path))) := by
  constructor
  · intro t e p fuel r h
    simp [from_cli_args] at h
    obtain ⟨r', hr', hmap⟩ := h
    have hok := lockLoop_wait_forever fuel 0 r' hr'
    subst hok
    simp [Except.map] at hmap
    exact hmap.symm
  · intro t e w p N hw hlt
    obtain ⟨r, hr, hor⟩ :=
      @lockLoop_deadline t e w p hw N 0 (by simpa using hlt)
    refine ⟨N + 1, r.map (fun _ => true), ?_, ?_⟩
    · simp [from_cli_args, hr]
    · rcases hor with rfl | rfl
      · left; rfl
      · right; rfl

/-- Witness for C8 at concrete inputs: with timeout 0 and a lock that
succeeds immediately the result is a held lock; with timeout 1 s and a lock
that never succeeds, a clock advancing one second per iteration makes the
loop terminate in a lock-timeout. -/
theorem C8_witness :
    ((Except.ok true : Except Err Bool) = .ok true) ∧
    (∃ fuel r,
      from_cli_args true true (fun _ => false) (fun i => i * nsPerSec) 1
        (.utf8 "/m") fuel = some r ∧
      (r = .ok true ∨ r = .error (.lockTimeout (.utf8 "/m")))) :=
  ⟨C8_lock_acquisition.1 (fun _ => true) (fun _ => 0) (.utf8 "/m") 1 _ (by rfl),
   C8_lock_acquisition.2 (fun _ => false) (fun i => i * nsPerSec) 1 (.utf8 "/m") 2
     (by decide) (by decide)⟩

end Ros2ws
